import Mathlib

/-!
Shallow embedding of `src/biotite/structure/pseudoknots.py`.

The Python module computes pseudoknot order assignments for a list of RNA
base pairs.  The embedding below translates each Python function into a Lean
function over lists:

* numpy integer arrays become `List Nat` / `List Int`;
* the `_region` class becomes the `Region` structure (its `region_pairs`
  array is the `pairs` field, `start`/`stop` are the cached extrema);
* Python sets of `_region` objects become `List Region` values.  All regions
  produced by `find_regions_pure` carry pairwise-disjoint, non-empty
  `pairs` fields, so value equality of the embedded `Region` coincides with
  the object identity that the Python code uses for set membership;
* `frozenset`s of regions (DP solutions) become lists kept in a canonical
  sorted, duplicate-free form, so list equality coincides with set equality;
* runtime failures (the `assert`, `IndexError` from an empty `np.where`
  result, `ValueError` from reducing an empty array, `TypeError` from
  iterating an unset `dp_matrix` cell, and `RecursionError` from the Python
  recursion limit) become the `PError` constructors; exception propagation
  is the explicit `ebind` combinator, and recursion depth is an explicit
  fuel argument whose exhaustion models `RecursionError`;
* `np.argsort` is modelled with a stable insertion sort.  The two coincide
  whenever the sorted keys are distinct, which holds for every well-formed
  input (each residue participates in at most one base pair, hence all
  region endpoints are distinct).
-/

/-- Runtime failures of the Python code. -/
inductive PError where
  | assertionError
  | valueError
  | indexError
  | typeError
  | recursionError
deriving DecidableEq, Repr

/-- Exception propagation: evaluate `x`; an error aborts the computation. -/
def ebind (x : Except PError α) (f : α → Except PError β) : Except PError β :=
  match x with
  | .error e => .error e
  | .ok a => f a

/-- Embedding of the `_region` class: `pairs` is `region_pairs` (indices into
the original base-pair list), `start`/`stop` the cached extrema of the
residue positions spanned by those base pairs. -/
structure Region where
  pairs : List Nat
  start : Nat
  stop : Nat
deriving DecidableEq, Repr

/-- The placeholder region used for (never taken) out-of-range list reads. -/
def noRegion : Region := ⟨[], 0, 0⟩

/-- Minimum of a list of naturals (the list is never empty where used;
`np.min` of an empty selection instead raises, which the callers guard). -/
def natListMin : List Nat → Nat
  | [] => 0
  | a :: as => as.foldl Nat.min a

/-- Maximum of a list of naturals. -/
def natListMax : List Nat → Nat
  | [] => 0
  | a :: as => as.foldl Nat.max a

/-- Stable insertion into a sorted list, used to model sorting. -/
def insertB (le : α → α → Bool) (a : α) : List α → List α
  | [] => [a]
  | b :: l => if le a b then a :: b :: l else b :: insertB le a l

/-- Stable insertion sort (models `np.argsort`-style sorting; with distinct
keys it computes the same order as the unstable numpy quicksort). -/
def sortB (le : α → α → Bool) : List α → List α
  | [] => []
  | a :: l => insertB le a (sortB le l)

/-- The constructor `_region.__init__`: `start`/`stop` are the minimum and
maximum entry of `base_pairs[region_pairs]` (both columns of the original,
unnormalised rows). -/
def region_mk (bp : List (Nat × Nat)) (ps : List Nat) : Region :=
  let vals := (ps.map (fun p => [(bp.getD p (0, 0)).1, (bp.getD p (0, 0)).2])).flatten
  { pairs := ps, start := natListMin vals, stop := natListMax vals }

/-- `np.sort(base_pairs, axis=1)`: each pair with the smaller residue first. -/
def sortedPairs (bp : List (Nat × Nat)) : List (Nat × Nat) :=
  bp.map (fun q => (Nat.min q.1 q.2, Nat.max q.1 q.2))

/-- `np.argsort vals` as a permutation of `range vals.length`. -/
def argsortNat (vals : List Nat) : List Nat :=
  sortB (fun i j => decide (vals.getD i 0 ≤ vals.getD j 0)) (List.range vals.length)

/-- `original_indices`: the positions of the base pairs sorted by left
residue. -/
def original_indices (bp : List (Nat × Nat)) : List Nat :=
  argsortNat ((sortedPairs bp).map (·.1))

/-- The base pairs sorted by their left residue. -/
def sorted_by_left (bp : List (Nat × Nat)) : List (Nat × Nat) :=
  (original_indices bp).map (fun i => (sortedPairs bp).getD i (0, 0))

/-- `downstream_rank = np.argsort (np.argsort rights)`: the rank of each
right residue of each sorted pair. -/
def downstream_rank (bp : List (Nat × Nat)) : List Nat :=
  let rights := (sorted_by_left bp).map (·.2)
  let ord := argsortNat rights
  (List.range rights.length).map (fun i => ord.findIdx (fun x => decide (x = i)))

/-- The scan of `_find_regions`: split the (rank, original index) sequence
into maximal runs of consecutively nested pairs.  `cur` is the region being
built, `prev` the rank of the previous pair; a run ends when
`previous_rank - this_rank ≠ 1`. -/
def region_chunks_aux : List (Nat × Nat) → List Nat → Nat → List (List Nat)
  | [], cur, _ => [cur]
  | (r, o) :: rest, cur, prev =>
    if ((prev : Int) - (r : Int)) ≠ 1 then cur :: region_chunks_aux rest [o] r
    else region_chunks_aux rest (cur ++ [o]) r

/-- The member lists (original base-pair positions) of the regions found by
`_find_regions`, in scan order. -/
def region_chunks (bp : List (Nat × Nat)) : List (List Nat) :=
  match (downstream_rank bp).zip (original_indices bp) with
  | [] => []
  | (r, o) :: rest => region_chunks_aux rest [o] r

/-- `_find_regions` on a non-empty input (the empty input is guarded in
`find_regions`). -/
def find_regions_pure (bp : List (Nat × Nat)) : List Region :=
  (region_chunks bp).map (region_mk bp)

/-- `_find_regions`.  On an empty input the final `_region` constructor
reduces an empty array (`np.min`), which raises `ValueError`; every region
closed on a non-empty input has a non-empty member list, so no error can
occur there. -/
def find_regions (bp : List (Nat × Nat)) : Except PError (List Region) :=
  if bp.isEmpty then .error .valueError else .ok (find_regions_pure bp)

/-- `_get_region_array_for`: the start/stop events of the given regions,
sorted by residue position.  An event is `(position, region, isStart)`. -/
def region_events (regions : List Region) : List (Nat × Region × Bool) :=
  sortB (fun a b => decide (a.1 ≤ b.1))
    ((regions.map (fun r => [(r.start, r, true), (r.stop, r, false)])).flatten)

/-- `_remove_non_conflicting_regions`: a region is removed when no other
region has an event strictly inside its span, or when every region occurring
there occurs twice (is fully nested).  Returns the surviving regions as a
set (here: a deduplicated list). -/
def remove_non_conflicting_regions (regions : List Region) : List Region :=
  let evs := region_events regions
  let ra : List Region := evs.map (fun e => e.2.1)
  let starts := (List.range evs.length).filter (fun s => (evs.getD s (0, noRegion, false)).2.2)
  let toRemove := (starts.filter (fun s =>
      let r := ra.getD s noRegion
      let rest := ra.drop (s + 1)
      let between := rest.take (rest.findIdx (fun x => decide (x = r)))
      between.isEmpty ||
        decide (natListMin ((between.dedup).map (fun x => between.count x)) = 2)
    )).map (fun s => ra.getD s noRegion)
  ((evs.filter (fun e => decide (e.2.1 ∉ toRemove))).map (fun e => e.2.1)).dedup

/-- The sweep of `_cluster_conflicts`: +1 at each start event, −1 at each
stop event; each return of the running total to zero closes a cluster. -/
def cluster_sweep : List (Nat × Region × Bool) → Int → List Region → List (List Region)
  | [], _, cur => if cur.isEmpty then [] else [cur.dedup]
  | (_, r, isStart) :: rest, total, cur =>
    let t := total + (if isStart then 1 else -1)
    if t = 0 then (cur ++ [r]).dedup :: cluster_sweep rest t []
    else cluster_sweep rest t (cur ++ [r])

/-- `_cluster_conflicts`. -/
def cluster_conflicts (regions : List Region) : List (List Region) :=
  cluster_sweep (region_events regions) 0 []

/-- A DP solution: a set of regions, kept as a sorted duplicate-free list. -/
abbrev Solution := List Region

/-- Total order on the member lists (lexicographic), used only to keep
solution sets in a canonical form (the Python `frozenset` needs no order). -/
def listLE : List Nat → List Nat → Bool
  | [], _ => true
  | _ :: _, [] => false
  | a :: as, b :: bs => decide (a < b) || (decide (a = b) && listLE as bs)

/-- Canonical order on regions (lexicographic on all fields). -/
def regLE (r s : Region) : Bool :=
  decide (r.start < s.start) ||
    (decide (r.start = s.start) &&
      (decide (r.stop < s.stop) || (decide (r.stop = s.stop) && listLE r.pairs s.pairs)))

/-- Union of two solutions (`frozenset` union), renormalised. -/
def solUnion (a b : Solution) : Solution :=
  sortB regLE ((a ++ b).dedup)

/-- Add a candidate to the candidate set unless already present
(`set.add`). -/
def dedupAdd (acc : List Solution) (s : Solution) : List Solution :=
  if s ∈ acc then acc else acc ++ [s]

/-- Add several candidates in order. -/
def dedupApp (acc : List Solution) (xs : List Solution) : List Solution :=
  xs.foldl dedupAdd acc

/-- `_region.get_score`: the sum of the scoring vector over the member base
pairs of the region (the Python lazy cache is a pure memoisation). -/
def region_score (scoring : List Int) (r : Region) : Int :=
  (r.pairs.map (fun p => scoring.getD p 0)).sum

/-- Score of a solution: the sum of the scores of its member regions. -/
def solScore (scoring : List Int) (s : Solution) : Int :=
  (s.map (region_score scoring)).sum

/-- The minimum start position of a solution, `-1` for the empty solution
(the sentinel used by `_get_optimal_solutions`). -/
def solMinStart : Solution → Int
  | [] => -1
  | r :: rs => rs.foldl (fun a s => Min.min a (s.start : Int)) (r.start : Int)

/-- The maximum stop position of a solution, `-1` for the empty solution. -/
def solMaxStop : Solution → Int
  | [] => -1
  | r :: rs => rs.foldl (fun a s => Max.max a (s.stop : Int)) (r.stop : Int)

/-- The partially filled DP matrix `dp_matrix`: an association list from the
cell coordinates to the solution set of the cell.  Cells that are absent model
numpy object cells still holding `None`. -/
abbrev DPM := List ((Nat × Nat) × List Solution)

/-- Read a DP cell; `none` models a cell still holding `None`. -/
def dpGet (m : DPM) (i j : Nat) : Option (List Solution) :=
  match m.find? (fun e => decide (e.1 = (i, j))) with
  | some e => some e.2
  | none => none

/-- Read a DP cell with error: iterating a `None` cell raises `TypeError`. -/
def dpGetE (m : DPM) (i j : Nat) : Except PError (List Solution) :=
  match dpGet m i j with
  | some c => .ok c
  | none => .error .typeError

/-- Read a DP cell whose column index is a Python `int` (possibly negative;
a negative index selects an unset lower-triangle cell, raising `TypeError`
when iterated). -/
def dpGetRow (m : DPM) (i : Nat) (k : Int) : Except PError (List Solution) :=
  if k < 0 then .error .typeError else dpGetE m i k.toNat

/-- Read a DP cell whose row index is a Python `int`. -/
def dpGetCol (m : DPM) (k : Int) (j : Nat) : Except PError (List Solution) :=
  if k < 0 then .error .typeError else dpGetE m k.toNat j

/-- `np.where(start_stops == v)[0][0]`: the first position holding `v`;
an empty result makes the `[0]` subscript raise `IndexError`. -/
def findIdxVal (ss : List Nat) (v : Int) : Except PError Nat :=
  match (List.range ss.length).find? (fun k => decide ((ss.getD k 0 : Int) = v)) with
  | some k => .ok k
  | none => .error .indexError

/-- `range a b` over Python ints. -/
def intRange (a b : Int) : List Int :=
  (List.range (b - a).toNat).map (fun t => a + t)

/-- Inner product loop of the split recombination: all unions of candidates
of `dp_matrix[i, k]` and `dp_matrix[k+1, j]`. -/
def addProd (acc : List Solution) (c1 c2 : List Solution) : List Solution :=
  c1.foldl (fun a s1 => c2.foldl (fun a s2 => dedupAdd a (solUnion s1 s2)) a) acc

/-- The split loop `for k in range(...)` of the cross term. -/
def crossSplit (m : DPM) (i j : Nat) : List Int → List Solution → Except PError (List Solution)
  | [], acc => .ok acc
  | k :: ks, acc =>
    ebind (dpGetRow m i k) fun c1 =>
    ebind (dpGetCol m (k + 1) j) fun c2 =>
    crossSplit m i j ks (addProd acc c1 c2)

/-- One (solution1, solution2) pair of the cross term: disjoint spans are
united directly; overlapping spans enumerate all intermediate splits. -/
def crossOne (m : DPM) (ss : List Nat) (i j : Nat) (acc : List Solution) (s1 s2 : Solution) :
    Except PError (List Solution) :=
  let lowest := solMinStart s2
  let highest := solMaxStop s1
  if highest < lowest then .ok (dedupAdd acc (solUnion s1 s2))
  else
    ebind (findIdxVal ss lowest) fun kLo =>
    ebind (findIdxVal ss highest) fun kHi =>
    crossSplit m i j (intRange ((kLo : Int) - 1) ((kHi : Int) + 1)) acc

/-- The inner loop over the solutions of the bottom cell. -/
def crossInner (m : DPM) (ss : List Nat) (i j : Nat) (s1 : Solution) :
    List Solution → List Solution → Except PError (List Solution)
  | [], acc => .ok acc
  | s2 :: bs, acc =>
    ebind (crossOne m ss i j acc s1 s2) fun acc2 =>
    crossInner m ss i j s1 bs acc2

/-- The outer loop over the solutions of the left cell. -/
def crossOuter (m : DPM) (ss : List Nat) (i j : Nat) (bottom : List Solution) :
    List Solution → List Solution → Except PError (List Solution)
  | [], acc => .ok acc
  | s1 :: ls, acc =>
    ebind (crossInner m ss i j s1 bottom acc) fun acc2 =>
    crossOuter m ss i j bottom ls acc2

/-- Keep only the candidates of maximal score (`np.amax` of an empty score
array would raise `ValueError`; the candidate set is in fact never empty). -/
def maxFilter (scoring : List Int) : List Solution → Except PError (List Solution)
  | [] => .error .valueError
  | c :: cs =>
    let mx := cs.foldl (fun a s => Max.max a (solScore scoring s)) (solScore scoring c)
    .ok ((c :: cs).filter (fun s => decide (solScore scoring s = mx)))

/-- Compute one DP cell `dp_matrix[i, j]` (the body of the double loop of
`_get_optimal_solutions`). -/
def computeCell (ra : List Region) (ss : List Nat) (scoring : List Int) (m : DPM)
    (i j : Nat) : Except PError (List Solution) :=
  ebind (dpGetE m i (j - 1)) fun left =>
  ebind (dpGetE m (i + 1) j) fun bottom =>
  let c1 := dedupApp (dedupApp [] left) bottom
  ebind
    (if ra.getD i noRegion = ra.getD j noRegion then
      ebind (dpGetE m (i + 1) (j - 1)) fun bl =>
        .ok (dedupApp c1 (bl.map (fun s => solUnion s [ra.getD i noRegion])))
    else .ok c1) fun c2 =>
  ebind
    (if (left.any (fun s => !s.isEmpty)) && (bottom.any (fun s => !s.isEmpty)) then
      crossOuter m ss i j bottom left c2
    else .ok c2) fun c3 =>
  maxFilter scoring c3

/-- The inner loop `for i in range(j-1, -1, -1)` filling column `j`. -/
def dpRow (ra : List Region) (ss : List Nat) (scoring : List Int) (j : Nat) :
    List Nat → DPM → Except PError DPM
  | [], m => .ok m
  | i :: is, m =>
    ebind (computeCell ra ss scoring m i j) fun c =>
    dpRow ra ss scoring j is (((i, j), c) :: m)

/-- The outer loop `for j in range(len(cluster)*2)`. -/
def dpAll (ra : List Region) (ss : List Nat) (scoring : List Int) :
    List Nat → DPM → Except PError DPM
  | [], m => .ok m
  | j :: js, m =>
    ebind (dpRow ra ss scoring j ((List.range j).reverse) m) fun m2 =>
    dpAll ra ss scoring js m2

/-- `_get_optimal_solutions`: interval DP over the 2k sorted events of the
cluster; the answer is `dp_matrix[0, -1]`. -/
def get_optimal_solutions (cluster : List Region) (scoring : List Int) :
    Except PError (List Solution) :=
  let evs := region_events cluster
  let ra := evs.map (fun e => e.2.1)
  let ss := evs.map (fun e => e.1)
  let n := ra.length
  let m0 : DPM := (List.range n).map (fun i => ((i, i), ([[]] : List Solution)))
  ebind (dpAll ra ss scoring (List.range n) m0) fun m =>
  match dpGet m 0 (n - 1) with
  | some sols => .ok sols
  | none => .error .indexError

/-- Increment a row at one position (`results[p] += 1`); indices are always
in range for the rows built by the algorithm. -/
def bumpAt : List Nat → Nat → List Nat
  | [], _ => []
  | x :: xs, 0 => (x + 1) :: xs
  | x :: xs, n + 1 => x :: bumpAt xs n

/-- `results[reg.get_index_mask()] += 1` for one region (its member list is
duplicate-free, so the fancy-indexed numpy increment adds one per member). -/
def incIndices (row : List Nat) (idxs : List Nat) : List Nat :=
  idxs.foldl bumpAt row

/-- Increment the orders of all base pairs of the removed regions. -/
def incRegions (row : List Nat) (rs : List Region) : List Nat :=
  rs.foldl (fun r reg => incIndices r reg.pairs) row

/-- Elementwise sum of two rows (`results + diff` on equal-length arrays). -/
def zipAdd (a b : List Nat) : List Nat :=
  List.zipWith (· + ·) a b

/-- The loop body of `_get_result_diff` over the optimal solutions:
`step` is the recursive call at the next smaller fuel. -/
def process_opts (cluster : List Region) (scoring : List Int)
    (step : List Region → Except PError (List (List Nat))) :
    List Solution → Except PError (List (List Nat))
  | [] => .ok []
  | opt :: rest =>
    let next0 := cluster.filter (fun r => decide (r ∉ opt))
    let base := incRegions (List.replicate scoring.length 0) next0
    let next := remove_non_conflicting_regions next0
    ebind
      (if next.length > 0 then
        ebind (step next) fun diffs => .ok (diffs.map (fun d => zipAdd base d))
      else .ok [base]) fun rows =>
    ebind (process_opts cluster scoring step rest) fun more =>
    .ok (rows ++ more)

/-- `_get_result_diff`.  The fuel models the Python recursion limit:
exhausting it is `RecursionError`. -/
def get_result_diff : Nat → List Region → List Int → Except PError (List (List Nat))
  | 0, _, _ => .error .recursionError
  | fuel + 1, cluster, scoring =>
    ebind (get_optimal_solutions cluster scoring) fun opts =>
    process_opts cluster scoring (fun next => get_result_diff fuel next scoring) opts

/-- The result loop of `pseudoknots`: `results` is reassigned (not merged)
for every cluster, so only the rows of the last cluster survive; errors raised
for earlier clusters still propagate. -/
def fold_clusters (fuel : Nat) (scoring : List Int) :
    List (List Region) → List (List Nat) → Except PError (List (List Nat))
  | [], acc => .ok acc
  | c :: cs, _ =>
    ebind (get_result_diff fuel c scoring) fun r =>
    fold_clusters fuel scoring cs r

/-- The effective scoring vector: the argument, or `np.ones` by default. -/
def actual_scoring (bp : List (Nat × Nat)) (scoringOpt : Option (List Int)) : List Int :=
  scoringOpt.getD (List.replicate bp.length 1)

/-- `pseudoknots(base_pairs, scoring=None)`.  The result rows are the
`np.vstack`ed order arrays. -/
def pseudoknots (fuel : Nat) (bp : List (Nat × Nat)) (scoringOpt : Option (List Int)) :
    Except PError (List (List Nat)) :=
  if bp.length = (actual_scoring bp scoringOpt).length then
    ebind (find_regions bp) fun regions =>
    fold_clusters fuel (actual_scoring bp scoringOpt)
      (cluster_conflicts (remove_non_conflicting_regions regions))
      [List.replicate bp.length 0]
  else .error .assertionError

/-- Two base pairs cross (pseudoknot) when their spans partially overlap
without nesting, after normalising each pair. -/
def pairsCross (a b : Nat × Nat) : Prop :=
  (Nat.min a.1 a.2 < Nat.min b.1 b.2 ∧ Nat.min b.1 b.2 < Nat.max a.1 a.2 ∧
    Nat.max a.1 a.2 < Nat.max b.1 b.2) ∨
  (Nat.min b.1 b.2 < Nat.min a.1 a.2 ∧ Nat.min a.1 a.2 < Nat.max b.1 b.2 ∧
    Nat.max b.1 b.2 < Nat.max a.1 a.2)

instance (a b : Nat × Nat) : Decidable (pairsCross a b) := by
  unfold pairsCross; exact inferInstance

/-- Well-formedness record for the region lists flowing through the
recursion: members are duplicate-free, pairwise disjoint across regions and
in range of the scoring vector.  `find_regions_pure` establishes this for
its full output, and it is inherited by every sublist. -/
def ClusterOK (c : List Region) (n : Nat) : Prop :=
  (∀ R ∈ c, R.pairs.Nodup) ∧
  (∀ R ∈ c, ∀ S ∈ c, R ≠ S → ∀ p, p ∈ R.pairs → p ∉ S.pairs) ∧
  (∀ R ∈ c, ∀ p ∈ R.pairs, p < n)

/-- Structure of a result row produced for a region list `c`: it has the
right length, is supported on the members of `c`, and is constant on every
region of `c`. -/
def RowOK (c : List Region) (n : Nat) (row : List Nat) : Prop :=
  row.length = n ∧
  (∀ p, row.getD p 0 ≠ 0 → ∃ R, R ∈ c ∧ p ∈ R.pairs) ∧
  (∀ R, R ∈ c → ∀ p, p ∈ R.pairs → ∀ q, q ∈ R.pairs → row.getD p 0 = row.getD q 0)

/-- Input with two independent conflict clusters {(0,2),(1,3)} and
{(4,6),(5,7)} (each a symmetric crossing tie). -/
def bpMulti : List (Nat × Nat) := [(0, 2), (1, 3), (4, 6), (5, 7)]

/-- Fully nested input, spec Scenario B. -/
def bpNested : List (Nat × Nat) := [(0, 5), (1, 4), (2, 3)]

/-- Three regions with event sequence A B C Bend Cend Aend: B and C cross
inside the wrapper A. -/
def bpWrapper : List (Nat × Nat) := [(0, 5), (1, 3), (2, 4)]

/-- Two crossing base pairs, a single conflict cluster. -/
def bpCross : List (Nat × Nat) := [(0, 2), (1, 3)]

/-- The conflict cluster that the pipeline builds for `bpCross`. -/
def clusterCross : List Region := [⟨[0], 0, 2⟩, ⟨[1], 1, 3⟩]

/-- `ebind` of a success. -/
theorem ebind_ok (a : α) (f : α → Except PError β) : ebind (.ok a) f = f a := rfl

/-- `ebind` of a failure. -/
theorem ebind_error (e : PError) (f : α → Except PError β) :
    ebind (.error e) f = .error e := rfl

/-- Inversion for successful `ebind`. -/
theorem ebind_ok_iff {x : Except PError α} {f : α → Except PError β} {b : β} :
    ebind x f = .ok b ↔ ∃ a, x = .ok a ∧ f a = .ok b := by
  cases x <;> simp [ebind]

/-- Inserting keeps the same elements. -/
theorem insertB_perm (le : α → α → Bool) (a : α) :
    ∀ l : List α, List.Perm (insertB le a l) (a :: l) := by
  intro l
  induction l with
  | nil => simp [insertB]
  | cons b t ih =>
    simp only [insertB]
    by_cases h : le a b = true
    · simp [h]
    · simp only [h, if_false]
      exact (List.Perm.cons b ih).trans (List.Perm.swap a b t)

/-- Sorting keeps the same elements. -/
theorem sortB_perm (le : α → α → Bool) : ∀ l : List α, List.Perm (sortB le l) l := by
  intro l
  induction l with
  | nil => exact List.Perm.refl _
  | cons a t ih => exact (insertB_perm le a (sortB le t)).trans (List.Perm.cons a ih)

/-- Membership through the sort. -/
theorem sortB_mem {le : α → α → Bool} {l : List α} {x : α} : x ∈ sortB le l ↔ x ∈ l :=
  (sortB_perm le l).mem_iff

/-- Every event of `region_events rs` carries a region of `rs`. -/
theorem region_events_mem {rs : List Region} {e : Nat × Region × Bool}
    (h : e ∈ region_events rs) : e.2.1 ∈ rs := by
  unfold region_events at h
  rw [sortB_mem] at h
  simp only [List.mem_flatten, List.mem_map] at h
  obtain ⟨l, ⟨r, hr, rfl⟩, he⟩ := h
  simp only [List.mem_cons, List.not_mem_nil, or_false] at he
  rcases he with rfl | rfl
  · exact hr
  · exact hr

/-- The conflict filter only removes regions. -/
theorem remove_non_conflicting_subset (rs : List Region) :
    ∀ x ∈ remove_non_conflicting_regions rs, x ∈ rs := by
  intro x hx
  simp only [remove_non_conflicting_regions, List.mem_dedup, List.mem_map,
    List.mem_filter] at hx
  obtain ⟨e, ⟨he, _⟩, rfl⟩ := hx
  exact region_events_mem he

/-- Members of swept clusters come from the accumulator or the events. -/
theorem cluster_sweep_mem :
    ∀ (evs : List (Nat × Region × Bool)) (t : Int) (cur : List Region) (c : List Region),
      c ∈ cluster_sweep evs t cur → ∀ x ∈ c, x ∈ cur ∨ ∃ e ∈ evs, x = e.2.1 := by
  intro evs
  induction evs with
  | nil =>
    intro t cur c hc x hx
    simp only [cluster_sweep] at hc
    split at hc
    · simp at hc
    · simp only [List.mem_singleton] at hc
      subst hc
      exact Or.inl (List.mem_dedup.mp hx)
  | cons ev rest ih =>
    intro t cur c hc x hx
    obtain ⟨pos, r, b⟩ := ev
    simp only [cluster_sweep] at hc
    split at hc <;> split at hc
    · rcases List.mem_cons.mp hc with rfl | hc2
      · rcases List.mem_append.mp (List.mem_dedup.mp hx) with h | h
        · exact Or.inl h
        · exact Or.inr ⟨(pos, r, b), List.mem_cons_self _ _, by simpa using h⟩
      · rcases ih _ _ _ hc2 x hx with h | ⟨e, he, hxe⟩
        · simp at h
        · exact Or.inr ⟨e, List.mem_cons_of_mem _ he, hxe⟩
    · rcases ih _ _ _ hc x hx with h | ⟨e, he, hxe⟩
      · rcases List.mem_append.mp h with h2 | h2
        · exact Or.inl h2
        · exact Or.inr ⟨(pos, r, b), List.mem_cons_self _ _, by simpa using h2⟩
      · exact Or.inr ⟨e, List.mem_cons_of_mem _ he, hxe⟩
    · rcases List.mem_cons.mp hc with rfl | hc2
      · rcases List.mem_append.mp (List.mem_dedup.mp hx) with h | h
        · exact Or.inl h
        · exact Or.inr ⟨(pos, r, b), List.mem_cons_self _ _, by simpa using h⟩
      · rcases ih _ _ _ hc2 x hx with h | ⟨e, he, hxe⟩
        · simp at h
        · exact Or.inr ⟨e, List.mem_cons_of_mem _ he, hxe⟩
    · rcases ih _ _ _ hc x hx with h | ⟨e, he, hxe⟩
      · rcases List.mem_append.mp h with h2 | h2
        · exact Or.inl h2
        · exact Or.inr ⟨(pos, r, b), List.mem_cons_self _ _, by simpa using h2⟩
      · exact Or.inr ⟨e, List.mem_cons_of_mem _ he, hxe⟩

/-- Every region of a conflict cluster is one of the clustered regions. -/
theorem cluster_conflicts_subset (rs : List Region) :
    ∀ c ∈ cluster_conflicts rs, ∀ x ∈ c, x ∈ rs := by
  intro c hc x hx
  rcases cluster_sweep_mem _ _ _ _ hc x hx with h | ⟨e, he, rfl⟩
  · simp at h
  · exact region_events_mem he

/-- Flattening the region scan recovers the scanned indices. -/
theorem region_chunks_aux_flatten :
    ∀ (rest : List (Nat × Nat)) (cur : List Nat) (prev : Nat),
      (region_chunks_aux rest cur prev).flatten = cur ++ rest.map (·.2) := by
  intro rest
  induction rest with
  | nil => intro cur prev; simp [region_chunks_aux]
  | cons h t ih =>
    intro cur prev
    obtain ⟨r, o⟩ := h
    simp only [region_chunks_aux]
    split
    · simp [ih]
    · simp [ih]

/-- The argsorted index list is a permutation of all base-pair positions. -/
theorem original_indices_perm (bp : List (Nat × Nat)) :
    List.Perm (original_indices bp) (List.range bp.length) := by
  have hlen : ((sortedPairs bp).map (·.1)).length = bp.length := by
    simp [sortedPairs]
  unfold original_indices argsortNat
  rw [hlen]
  exact sortB_perm _ _

/-- Length of the argsorted index list. -/
theorem original_indices_length (bp : List (Nat × Nat)) :
    (original_indices bp).length = bp.length :=
  (original_indices_perm bp).length_eq.trans (List.length_range _)

/-- Length of the rank list. -/
theorem downstream_rank_length (bp : List (Nat × Nat)) :
    (downstream_rank bp).length = (original_indices bp).length := by
  simp [downstream_rank, sorted_by_left]

/-- Second projection of a zip of equal-length lists. -/
theorem map_snd_zip_of_length :
    ∀ (a : List α) (b : List β), a.length = b.length → (a.zip b).map (·.2) = b := by
  intro a
  induction a with
  | nil =>
    intro b hb
    cases b with
    | nil => rfl
    | cons y u => simp at hb
  | cons x t ih =>
    intro b hb
    cases b with
    | nil => simp at hb
    | cons y u =>
      simp only [List.zip_cons_cons, List.map_cons]
      rw [ih u (by simpa using hb)]

/-- The region member lists partition the argsorted index list. -/
theorem region_chunks_flatten (bp : List (Nat × Nat)) :
    (region_chunks bp).flatten = original_indices bp := by
  unfold region_chunks
  have hlen := downstream_rank_length bp
  have hmap := map_snd_zip_of_length (downstream_rank bp) (original_indices bp) hlen
  cases hz : (downstream_rank bp).zip (original_indices bp) with
  | nil =>
    rw [hz] at hmap
    simpa using hmap
  | cons hd tl =>
    obtain ⟨r, o⟩ := hd
    rw [hz] at hmap
    rw [region_chunks_aux_flatten]
    simpa using hmap

/-- The concatenated member lists are duplicate-free. -/
theorem region_chunks_nodup_flatten (bp : List (Nat × Nat)) :
    (region_chunks bp).flatten.Nodup := by
  rw [region_chunks_flatten]
  exact ((original_indices_perm bp).nodup_iff).mpr (List.nodup_range _)

/-- The member list of each found region is one of the scan chunks. -/
theorem find_regions_pure_pairs (bp : List (Nat × Nat)) {R : Region}
    (h : R ∈ find_regions_pure bp) : R.pairs ∈ region_chunks bp := by
  unfold find_regions_pure at h
  obtain ⟨ch, hch, rfl⟩ := List.mem_map.mp h
  exact hch

/-- A found region is determined by its member list. -/
theorem find_regions_pure_eq_mk (bp : List (Nat × Nat)) {R : Region}
    (h : R ∈ find_regions_pure bp) : R = region_mk bp R.pairs := by
  obtain ⟨ch, hch, rfl⟩ := List.mem_map.mp h
  rfl

/-- Member lists of found regions are duplicate-free. -/
theorem find_regions_pure_nodup (bp : List (Nat × Nat)) :
    ∀ R ∈ find_regions_pure bp, R.pairs.Nodup := by
  intro R hR
  exact (List.nodup_flatten.mp (region_chunks_nodup_flatten bp)).1 _
    (find_regions_pure_pairs bp hR)

/-- Member lists of distinct found regions are disjoint. -/
theorem find_regions_pure_disjoint (bp : List (Nat × Nat)) :
    ∀ R ∈ find_regions_pure bp, ∀ S ∈ find_regions_pure bp, R ≠ S →
      ∀ p, p ∈ R.pairs → p ∉ S.pairs := by
  intro R hR S hS hne p hp hpS
  have hRS : R.pairs ≠ S.pairs := by
    intro hEq
    apply hne
    rw [find_regions_pure_eq_mk bp hR, find_regions_pure_eq_mk bp hS, hEq]
  have hdisj := (List.nodup_flatten.mp (region_chunks_nodup_flatten bp)).2
  have hd := List.Pairwise.forall (fun _ _ h => List.Disjoint.symm h) hdisj
    (find_regions_pure_pairs bp hR) (find_regions_pure_pairs bp hS) hRS
  exact hd hp hpS

/-- Member indices of found regions are positions of the input list. -/
theorem find_regions_pure_lt (bp : List (Nat × Nat)) :
    ∀ R ∈ find_regions_pure bp, ∀ p ∈ R.pairs, p < bp.length := by
  intro R hR p hp
  have h1 : p ∈ (region_chunks bp).flatten :=
    List.mem_flatten.mpr ⟨R.pairs, find_regions_pure_pairs bp hR, hp⟩
  rw [region_chunks_flatten] at h1
  exact List.mem_range.mp ((original_indices_perm bp).mem_iff.mp h1)

/-- The full output of region finding is well-formed. -/
theorem find_regions_ClusterOK (bp : List (Nat × Nat)) :
    ClusterOK (find_regions_pure bp) bp.length :=
  ⟨find_regions_pure_nodup bp, find_regions_pure_disjoint bp, find_regions_pure_lt bp⟩

/-- Well-formedness is inherited by sublists. -/
theorem ClusterOK.mono {c c2 : List Region} {n : Nat} (h : ClusterOK c n)
    (hs : ∀ x ∈ c2, x ∈ c) : ClusterOK c2 n :=
  ⟨fun R hR => h.1 R (hs R hR),
   fun R hR S hS hne => h.2.1 R (hs R hR) S (hs S hS) hne,
   fun R hR => h.2.2 R (hs R hR)⟩

/-- Successful region finding returns the pure region list. -/
theorem find_regions_ok {bp : List (Nat × Nat)} {rs : List Region}
    (h : find_regions bp = .ok rs) : rs = find_regions_pure bp := by
  unfold find_regions at h
  split at h
  · cases h
  · simpa using h.symm

/-- Incrementing preserves the row length. -/
theorem bumpAt_length : ∀ (row : List Nat) (i : Nat), (bumpAt row i).length = row.length := by
  intro row
  induction row with
  | nil => intro i; rfl
  | cons x xs ih =>
    intro i
    cases i with
    | zero => rfl
    | succ n => simpa [bumpAt] using ih n

/-- Value of an incremented row. -/
theorem bumpAt_getD : ∀ (row : List Nat) (i p : Nat),
    (bumpAt row i).getD p 0 =
      row.getD p 0 + (if p = i ∧ p < row.length then 1 else 0) := by
  intro row
  induction row with
  | nil => intro i p; simp [bumpAt]
  | cons x xs ih =>
    intro i p
    cases i with
    | zero =>
      cases p with
      | zero => simp [bumpAt]
      | succ q => simp [bumpAt]
    | succ n =>
      cases p with
      | zero => simp [bumpAt]
      | succ q =>
        simp only [bumpAt, List.getD_cons_succ, ih n q, List.length_cons]
        by_cases h1 : q = n <;> by_cases h2 : q < xs.length <;>
          simp [h1, h2, Nat.succ_lt_succ_iff]

/-- Fancy-index increment preserves the row length. -/
theorem incIndices_length : ∀ (idxs : List Nat) (row : List Nat),
    (incIndices row idxs).length = row.length := by
  intro idxs
  induction idxs with
  | nil => intro row; rfl
  | cons i is ih =>
    intro row
    show (incIndices (bumpAt row i) is).length = row.length
    rw [ih, bumpAt_length]

/-- Value of a fancy-indexed increment: each in-range position gains the
number of occurrences of its index. -/
theorem incIndices_getD : ∀ (idxs : List Nat) (row : List Nat) (p : Nat),
    (incIndices row idxs).getD p 0 =
      row.getD p 0 + (if p < row.length then idxs.count p else 0) := by
  intro idxs
  induction idxs with
  | nil => intro row p; simp [incIndices]
  | cons i is ih =>
    intro row p
    show (incIndices (bumpAt row i) is).getD p 0 = _
    rw [ih, bumpAt_getD, bumpAt_length]
    rcases eq_or_ne p i with rfl | h2
    · by_cases h1 : p < row.length <;> simp [h1, List.count_cons] <;> omega
    · by_cases h1 : p < row.length <;> simp [h1, h2, List.count_cons]

/-- Region increments preserve the row length. -/
theorem incRegions_length : ∀ (rs : List Region) (row : List Nat),
    (incRegions row rs).length = row.length := by
  intro rs
  induction rs with
  | nil => intro row; rfl
  | cons reg rs2 ih =>
    intro row
    show (incRegions (incIndices row reg.pairs) rs2).length = row.length
    rw [ih, incIndices_length]

/-- Value after incrementing all regions of a list. -/
theorem incRegions_getD : ∀ (rs : List Region) (row : List Nat) (p : Nat),
    (incRegions row rs).getD p 0 =
      row.getD p 0 +
        (if p < row.length then (rs.map (fun reg => reg.pairs.count p)).sum else 0) := by
  intro rs
  induction rs with
  | nil => intro row p; simp [incRegions]
  | cons reg rs2 ih =>
    intro row p
    show (incRegions (incIndices row reg.pairs) rs2).getD p 0 = _
    rw [ih, incIndices_getD, incIndices_length]
    by_cases h : p < row.length <;> simp [h] <;> omega

/-- Reads past the end of a row give the default. -/
theorem getD_eq_zero_of_le : ∀ (row : List Nat) (p : Nat),
    row.length ≤ p → row.getD p 0 = 0 := by
  intro row
  induction row with
  | nil => intro p _; rfl
  | cons x xs ih =>
    intro p hp
    cases p with
    | zero => simp at hp
    | succ q => simpa using ih q (by simpa using hp)

/-- Every entry of the all-zero row is zero. -/
theorem getD_replicate_zero : ∀ (n p : Nat), (List.replicate n 0).getD p 0 = 0 := by
  intro n
  induction n with
  | zero => intro p; rfl
  | succ m ih =>
    intro p
    cases p with
    | zero => rfl
    | succ q => simpa [List.replicate_succ] using ih q

/-- Length of an elementwise sum of equal-length rows. -/
theorem zipAdd_length (a b : List Nat) (h : a.length = b.length) :
    (zipAdd a b).length = a.length := by
  simp [zipAdd, h]

/-- Value of an elementwise sum of equal-length rows. -/
theorem zipAdd_getD : ∀ (a b : List Nat) (p : Nat), a.length = b.length →
    (zipAdd a b).getD p 0 = a.getD p 0 + b.getD p 0 := by
  intro a
  induction a with
  | nil =>
    intro b p h
    cases b with
    | nil => rfl
    | cons y u => simp at h
  | cons x xs ih =>
    intro b p h
    cases b with
    | nil => simp at h
    | cons y ys =>
      cases p with
      | zero => rfl
      | succ q => simpa [zipAdd] using ih ys q (by simpa using h)

/-- The base row written for one optimal solution (zeros, then one increment
per removed region) is a well-formed row for the cluster. -/
theorem base_RowOK {cluster next0 : List Region} {n : Nat}
    (hC : ClusterOK cluster n) (hsub : ∀ x ∈ next0, x ∈ cluster) :
    RowOK cluster n (incRegions (List.replicate n 0) next0) := by
  refine ⟨?_, ?_, ?_⟩
  · rw [incRegions_length, List.length_replicate]
  · intro p hp
    rw [incRegions_getD, getD_replicate_zero, List.length_replicate] at hp
    by_cases h : p < n
    · simp only [h, if_true, Nat.zero_add] at hp
      by_contra hcon
      push_neg at hcon
      apply hp
      apply List.sum_eq_zero
      intro x hx
      obtain ⟨reg, hreg, rfl⟩ := List.mem_map.mp hx
      rw [List.count_eq_zero]
      intro hmem
      exact hcon reg (hsub reg hreg) hmem
    · simp [h] at hp
  · intro R hR p hp q hq
    have hpn := hC.2.2 R hR p hp
    have hqn := hC.2.2 R hR q hq
    rw [incRegions_getD, incRegions_getD, getD_replicate_zero, getD_replicate_zero,
      List.length_replicate]
    simp only [hpn, hqn, if_true]
    have hmaps : ∀ reg ∈ next0, reg.pairs.count p = reg.pairs.count q := by
      intro reg hreg
      by_cases hrR : reg = R
      · subst hrR
        rw [List.count_eq_one_of_mem (hC.1 reg hR) hp,
          List.count_eq_one_of_mem (hC.1 reg hR) hq]
      · have h1 : p ∉ reg.pairs :=
          hC.2.1 R hR reg (hsub reg hreg) (fun hh => hrR hh.symm) p hp
        have h2 : q ∉ reg.pairs :=
          hC.2.1 R hR reg (hsub reg hreg) (fun hh => hrR hh.symm) q hq
        rw [List.count_eq_zero.mpr h1, List.count_eq_zero.mpr h2]
    rw [List.map_congr_left hmaps]

/-- Adding a well-formed row of a sub-cluster to a well-formed row of the
cluster gives a well-formed row of the cluster. -/
theorem zipAdd_RowOK {cluster next : List Region} {n : Nat} {base d : List Nat}
    (hC : ClusterOK cluster n) (hsub : ∀ x ∈ next, x ∈ cluster)
    (hb : RowOK cluster n base) (hd : RowOK next n d) :
    RowOK cluster n (zipAdd base d) := by
  have hlen : base.length = d.length := by rw [hb.1, hd.1]
  refine ⟨?_, ?_, ?_⟩
  · rw [zipAdd_length _ _ hlen, hb.1]
  · intro p hp
    rw [zipAdd_getD _ _ _ hlen] at hp
    by_cases h1 : base.getD p 0 = 0
    · have h2 : d.getD p 0 ≠ 0 := by omega
      obtain ⟨R, hR, hpR⟩ := hd.2.1 p h2
      exact ⟨R, hsub R hR, hpR⟩
    · exact hb.2.1 p h1
  · intro R hR p hp q hq
    rw [zipAdd_getD _ _ _ hlen, zipAdd_getD _ _ _ hlen, hb.2.2 R hR p hp q hq]
    congr 1
    by_cases hRn : R ∈ next
    · exact hd.2.2 R hRn p hp q hq
    · have hz : ∀ x, x ∈ R.pairs → d.getD x 0 = 0 := by
        intro x hx
        by_contra hc
        obtain ⟨S, hS, hxS⟩ := hd.2.1 x hc
        by_cases hRS : R = S
        · subst hRS
          exact hRn hS
        · exact hC.2.1 R hR S (hsub S hS) hRS x hx hxS
      rw [hz p hp, hz q hq]

/-- Every row produced by the per-solution loop is a well-formed row of its
cluster, provided the recursive step produces well-formed rows for
sub-clusters. -/
theorem process_opts_RowOK {cluster : List Region} {scoring : List Int} {n : Nat}
    {step : List Region → Except PError (List (List Nat))}
    (hn : scoring.length = n) (hC : ClusterOK cluster n)
    (hstep : ∀ next rows, (∀ x ∈ next, x ∈ cluster) → step next = .ok rows →
      ∀ r ∈ rows, RowOK next n r) :
    ∀ (opts : List Solution) (rows : List (List Nat)),
      process_opts cluster scoring step opts = .ok rows → ∀ r ∈ rows, RowOK cluster n r := by
  intro opts
  induction opts with
  | nil =>
    intro rows h r hr
    simp only [process_opts] at h
    cases h
    simp at hr
  | cons opt rest ih =>
    intro rows h r hr
    simp only [process_opts] at h
    rw [ebind_ok_iff] at h
    obtain ⟨rows1, h1, h2⟩ := h
    rw [ebind_ok_iff] at h2
    obtain ⟨more, hmore, heq⟩ := h2
    cases heq
    have hsub0 : ∀ x ∈ cluster.filter (fun r => decide (r ∉ opt)), x ∈ cluster := by
      intro x hx
      exact (List.mem_filter.mp hx).1
    have hsub1 : ∀ x ∈ remove_non_conflicting_regions
        (cluster.filter (fun r => decide (r ∉ opt))), x ∈ cluster := by
      intro x hx
      exact hsub0 x (remove_non_conflicting_subset _ x hx)
    rcases List.mem_append.mp hr with hr1 | hr2
    · subst hn
      split at h1
      · rw [ebind_ok_iff] at h1
        obtain ⟨diffs, hdiffs, hmap⟩ := h1
        cases hmap
        obtain ⟨d, hd, rfl⟩ := List.mem_map.mp hr1
        exact zipAdd_RowOK hC hsub1 (base_RowOK hC hsub0)
          (hstep _ diffs hsub1 hdiffs d hd)
      · cases h1
        rcases List.mem_singleton.mp hr1 with rfl
        exact base_RowOK hC hsub0
    · exact ih more hmore r hr2

/-- Every row returned by the order-assignment recursion is a well-formed
row of its region list. -/
theorem get_result_diff_RowOK :
    ∀ (fuel : Nat) (cluster : List Region) (scoring : List Int)
      (rows : List (List Nat)) (n : Nat),
      scoring.length = n → ClusterOK cluster n →
      get_result_diff fuel cluster scoring = .ok rows →
      ∀ r ∈ rows, RowOK cluster n r := by
  intro fuel
  induction fuel with
  | zero =>
    intro c s rows n hn hC h
    cases h
  | succ f ih =>
    intro c s rows n hn hC h
    simp only [get_result_diff] at h
    rw [ebind_ok_iff] at h
    obtain ⟨opts, _, hpo⟩ := h
    exact process_opts_RowOK hn hC
      (fun next rows2 hsub hnext => ih next s rows2 n hn (hC.mono hsub) hnext)
      opts rows hpo

/-- A successful cluster loop returns either the initial rows (no clusters)
or the rows of one of the clusters (the last one). -/
theorem fold_clusters_cases :
    ∀ (cs : List (List Region)) (fuel : Nat) (scoring : List Int)
      (acc res : List (List Nat)),
      fold_clusters fuel scoring cs acc = .ok res →
      res = acc ∨ ∃ c ∈ cs, get_result_diff fuel c scoring = .ok res := by
  intro cs
  induction cs with
  | nil =>
    intro fuel s acc res h
    cases h
    exact Or.inl rfl
  | cons c cs2 ih =>
    intro fuel s acc res h
    simp only [fold_clusters] at h
    rw [ebind_ok_iff] at h
    obtain ⟨r1, h1, h2⟩ := h
    rcases ih fuel s r1 res h2 with rfl | ⟨c2, hc2, hgd⟩
    · exact Or.inr ⟨c, List.mem_cons_self _ _, h1⟩
    · exact Or.inr ⟨c2, List.mem_cons_of_mem _ hc2, hgd⟩

/-- `ebind` cannot introduce an `AssertionError` its parts do not raise. -/
theorem na_ebind {x : Except PError α} {f : α → Except PError β}
    (hx : x ≠ .error .assertionError) (hf : ∀ a, f a ≠ .error .assertionError) :
    ebind x f ≠ .error .assertionError := by
  cases x with
  | error e => simpa [ebind] using hx
  | ok a => simpa [ebind] using hf a

/-- DP cell reads never raise `AssertionError`. -/
theorem na_dpGetE (m : DPM) (i j : Nat) : dpGetE m i j ≠ .error .assertionError := by
  unfold dpGetE
  split <;> simp

/-- Row-indexed DP reads never raise `AssertionError`. -/
theorem na_dpGetRow (m : DPM) (i : Nat) (k : Int) :
    dpGetRow m i k ≠ .error .assertionError := by
  unfold dpGetRow
  split
  · simp
  · exact na_dpGetE _ _ _

/-- Column-indexed DP reads never raise `AssertionError`. -/
theorem na_dpGetCol (m : DPM) (k : Int) (j : Nat) :
    dpGetCol m k j ≠ .error .assertionError := by
  unfold dpGetCol
  split
  · simp
  · exact na_dpGetE _ _ _

/-- Position lookup never raises `AssertionError`. -/
theorem na_findIdxVal (ss : List Nat) (v : Int) :
    findIdxVal ss v ≠ .error .assertionError := by
  unfold findIdxVal
  split <;> simp

/-- The split loop never raises `AssertionError`. -/
theorem na_crossSplit (m : DPM) (i j : Nat) :
    ∀ (ks : List Int) (acc : List Solution),
      crossSplit m i j ks acc ≠ .error .assertionError := by
  intro ks
  induction ks with
  | nil => intro acc; simp [crossSplit]
  | cons k ks2 ih =>
    intro acc
    exact na_ebind (na_dpGetRow _ _ _) fun c1 =>
      na_ebind (na_dpGetCol _ _ _) fun c2 => ih _

/-- One cross-term pair never raises `AssertionError`. -/
theorem na_crossOne (m : DPM) (ss : List Nat) (i j : Nat)
    (acc : List Solution) (s1 s2 : Solution) :
    crossOne m ss i j acc s1 s2 ≠ .error .assertionError := by
  unfold crossOne
  dsimp only
  split
  · simp
  · exact na_ebind (na_findIdxVal _ _) fun kLo =>
      na_ebind (na_findIdxVal _ _) fun kHi => na_crossSplit _ _ _ _ _

/-- The inner cross loop never raises `AssertionError`. -/
theorem na_crossInner (m : DPM) (ss : List Nat) (i j : Nat) (s1 : Solution) :
    ∀ (bs acc : List Solution),
      crossInner m ss i j s1 bs acc ≠ .error .assertionError := by
  intro bs
  induction bs with
  | nil => intro acc; simp [crossInner]
  | cons s2 bs2 ih =>
    intro acc
    exact na_ebind (na_crossOne _ _ _ _ _ _ _) fun acc2 => ih _

/-- The outer cross loop never raises `AssertionError`. -/
theorem na_crossOuter (m : DPM) (ss : List Nat) (i j : Nat) (bottom : List Solution) :
    ∀ (ls acc : List Solution),
      crossOuter m ss i j bottom ls acc ≠ .error .assertionError := by
  intro ls
  induction ls with
  | nil => intro acc; simp [crossOuter]
  | cons s1 ls2 ih =>
    intro acc
    exact na_ebind (na_crossInner _ _ _ _ _ _ _) fun acc2 => ih _

/-- Score filtering never raises `AssertionError`. -/
theorem na_maxFilter (scoring : List Int) :
    ∀ cs : List Solution, maxFilter scoring cs ≠ .error .assertionError := by
  intro cs
  cases cs <;> simp [maxFilter]

/-- A DP cell computation never raises `AssertionError`. -/
theorem na_computeCell (ra : List Region) (ss : List Nat) (scoring : List Int)
    (m : DPM) (i j : Nat) : computeCell ra ss scoring m i j ≠ .error .assertionError := by
  unfold computeCell
  refine na_ebind (na_dpGetE _ _ _) fun left => na_ebind (na_dpGetE _ _ _) fun bottom => ?_
  refine na_ebind ?_ fun c2 => na_ebind ?_ fun c3 => na_maxFilter _ _
  · split
    · exact na_ebind (na_dpGetE _ _ _) fun bl => by simp
    · simp
  · split
    · exact na_crossOuter _ _ _ _ _ _ _
    · simp

/-- A DP column fill never raises `AssertionError`. -/
theorem na_dpRow (ra : List Region) (ss : List Nat) (scoring : List Int) (j : Nat) :
    ∀ (is : List Nat) (m : DPM), dpRow ra ss scoring j is m ≠ .error .assertionError := by
  intro is
  induction is with
  | nil => intro m; simp [dpRow]
  | cons i is2 ih =>
    intro m
    exact na_ebind (na_computeCell _ _ _ _ _ _) fun c => ih _

/-- The DP fill never raises `AssertionError`. -/
theorem na_dpAll (ra : List Region) (ss : List Nat) (scoring : List Int) :
    ∀ (js : List Nat) (m : DPM), dpAll ra ss scoring js m ≠ .error .assertionError := by
  intro js
  induction js with
  | nil => intro m; simp [dpAll]
  | cons j js2 ih =>
    intro m
    exact na_ebind (na_dpRow _ _ _ _ _ _) fun m2 => ih _

/-- The solver never raises `AssertionError`. -/
theorem na_get_optimal_solutions (cluster : List Region) (scoring : List Int) :
    get_optimal_solutions cluster scoring ≠ .error .assertionError := by
  unfold get_optimal_solutions
  refine na_ebind (na_dpAll _ _ _ _ _) fun m => ?_
  split <;> simp

/-- The per-solution loop never raises `AssertionError` when the recursive
step does not. -/
theorem na_process_opts {cluster : List Region} {scoring : List Int}
    {step : List Region → Except PError (List (List Nat))}
    (hstep : ∀ next, step next ≠ .error .assertionError) :
    ∀ opts : List Solution, process_opts cluster scoring step opts ≠ .error .assertionError := by
  intro opts
  induction opts with
  | nil => simp [process_opts]
  | cons opt rest ih =>
    refine na_ebind ?_ fun rows => na_ebind ih fun more => by simp
    split
    · exact na_ebind (hstep _) fun diffs => by simp
    · simp

/-- The order-assignment recursion never raises `AssertionError`. -/
theorem na_get_result_diff :
    ∀ (fuel : Nat) (cluster : List Region) (scoring : List Int),
      get_result_diff fuel cluster scoring ≠ .error .assertionError := by
  intro fuel
  induction fuel with
  | zero => intro c s; simp [get_result_diff]
  | succ f ih =>
    intro c s
    exact na_ebind (na_get_optimal_solutions _ _)
      fun opts => na_process_opts (fun next => ih next s) opts

/-- The cluster loop never raises `AssertionError`. -/
theorem na_fold_clusters (fuel : Nat) (scoring : List Int) :
    ∀ (cs : List (List Region)) (acc : List (List Nat)),
      fold_clusters fuel scoring cs acc ≠ .error .assertionError := by
  intro cs
  induction cs with
  | nil => intro acc; simp [fold_clusters]
  | cons c cs2 ih =>
    intro acc
    exact na_ebind (na_get_result_diff _ _ _) fun r => ih _

/-- Region finding never raises `AssertionError`. -/
theorem na_find_regions (bp : List (Nat × Nat)) :
    find_regions bp ≠ .error .assertionError := by
  unfold find_regions
  split <;> simp

/-- Claim C1: the spec says the final matrix is the cross-product merge of
the row sets of all clusters.  The code instead reassigns `results` per cluster:
on `bpMulti` both clusters have two tied rows each (product four), yet the
returned matrix consists of the two rows of the *last* cluster only, with
the columns of the first cluster left at zero in every row. -/
theorem claim_C1_last_cluster_overwrites_results :
    pseudoknots 10 bpMulti none = .ok [[0, 0, 0, 1], [0, 0, 1, 0]] ∧
    (cluster_conflicts (remove_non_conflicting_regions (find_regions_pure bpMulti))).length = 2 ∧
    get_result_diff 10 ((cluster_conflicts (remove_non_conflicting_regions
      (find_regions_pure bpMulti))).getD 0 []) (actual_scoring bpMulti none) =
      .ok [[0, 1, 0, 0], [1, 0, 0, 0]] ∧
    get_result_diff 10 ((cluster_conflicts (remove_non_conflicting_regions
      (find_regions_pure bpMulti))).getD 1 []) (actual_scoring bpMulti none) =
      .ok [[0, 0, 0, 1], [0, 0, 1, 0]] :=
  ⟨rfl, rfl, rfl, rfl⟩

/-- Claim C2: the spec says `cell(0, 2k-1)` holds every globally optimal
solution for every cluster and scoring vector.  With the all-zero scoring
vector the empty and the singleton solutions tie, a DP cell holds both, and
the cross term evaluates `np.where(start_stops == -1)[0][0]` on an empty
result: the solver raises `IndexError` instead of returning the three tied
optimal solutions. -/
theorem claim_C2_solver_crashes_on_zero_scores :
    (cluster_conflicts (remove_non_conflicting_regions (find_regions_pure bpCross)) =
      [clusterCross]) ∧
    (get_optimal_solutions clusterCross [0, 0] = .error .indexError) ∧
    (∀ fuel, pseudoknots (fuel + 1) bpCross (some [0, 0]) = .error .indexError) :=
  ⟨rfl, rfl, fun _ => rfl⟩

/-- Claim C3: an explicit scoring vector whose length differs from the
base-pair count makes the call fail with the configuration error
(`AssertionError`), for every fuel, before any region detection (the guard
is checked first); and matching lengths never produce the configuration
error, so the length check is the only validated failure. -/
theorem claim_C3_scoring_length_validation (bp : List (Nat × Nat)) (s : List Int) (fuel : Nat) :
    (s.length ≠ bp.length → pseudoknots fuel bp (some s) = .error .assertionError) ∧
    (s.length = bp.length → pseudoknots fuel bp (some s) ≠ .error .assertionError) := by
  constructor
  · intro h
    unfold pseudoknots
    rw [if_neg (fun hh => h hh.symm)]
  · intro h
    unfold pseudoknots
    have hc : bp.length = (actual_scoring bp (some s)).length := by
      simpa [actual_scoring] using h.symm
    rw [if_pos hc]
    exact na_ebind (na_find_regions bp) fun regions => na_fold_clusters _ _ _ _

/-- Witness for C3: a mismatched vector is rejected with the configuration
error, a matching one is not. -/
theorem claim_C3_witness :
    pseudoknots 5 [(0, 1)] (some []) = .error .assertionError ∧
    pseudoknots 5 bpCross (some [1, 1]) ≠ .error .assertionError :=
  ⟨(claim_C3_scoring_length_validation [(0, 1)] [] 5).1 (by decide),
   (claim_C3_scoring_length_validation bpCross [1, 1] 5).2 (by decide)⟩

/-- Claim C4: the empty base-pair input does not return a one-row matrix of
length zero; the final `_region` constructor reduces an empty array and the
call raises (`ValueError`, modelled here), for every fuel. -/
theorem claim_C4_empty_input_raises :
    ∀ fuel, pseudoknots fuel ([] : List (Nat × Nat)) none = .error .valueError :=
  fun _ => rfl

/-- Claim C5: whenever the conflict filter leaves no region (no two regions
cross) and the input is non-empty, the call returns exactly one all-zero
row. -/
theorem claim_C5_no_conflict_single_zero_row (bp : List (Nat × Nat)) (fuel : Nat)
    (h1 : bp ≠ [])
    (h2 : remove_non_conflicting_regions (find_regions_pure bp) = []) :
    pseudoknots fuel bp none = .ok [List.replicate bp.length 0] := by
  unfold pseudoknots
  rw [if_pos (by simp [actual_scoring])]
  have hfr : find_regions bp = .ok (find_regions_pure bp) := by
    unfold find_regions
    rw [if_neg (by simpa using h1)]
  rw [hfr, ebind_ok, h2]
  rfl

/-- Witness for C5: the fully nested Scenario B input has no conflicting
region and yields the single all-zero row. -/
theorem claim_C5_witness :
    bpNested ≠ [] ∧
    remove_non_conflicting_regions (find_regions_pure bpNested) = [] ∧
    pseudoknots 7 bpNested none = .ok [List.replicate bpNested.length 0] :=
  ⟨by decide, rfl, claim_C5_no_conflict_single_zero_row bpNested 7 (by decide) rfl⟩

/-- Counterexample to claim C6: on the event pattern A B C Bend Cend Aend
(regions A = (0,5), B = (1,3), C = (2,4)) the filter does not keep all three
regions: the wrapper A is removed (B and C each occur twice inside its
span), so the surviving set is {B, C}, not {A, B, C}. -/
theorem claim_C6_counterexample :
    find_regions_pure bpWrapper = [⟨[0], 0, 5⟩, ⟨[1], 1, 3⟩, ⟨[2], 2, 4⟩] ∧
    remove_non_conflicting_regions [⟨[0], 0, 5⟩, ⟨[1], 1, 3⟩, ⟨[2], 2, 4⟩] =
      [⟨[1], 1, 3⟩, ⟨[2], 2, 4⟩] :=
  ⟨rfl, rfl⟩

/-- Claim C6 as amended: in the A B C Bend Cend Aend configuration the
filter removes the wrapper A (the events of every other region inside its
span occur twice) and passes exactly the two crossing regions B and C on to the
clustering step and the solver. -/
theorem claim_C6_wrapper_removed :
    (⟨[0], 0, 5⟩ : Region) ∉ remove_non_conflicting_regions (find_regions_pure bpWrapper) ∧
    (⟨[1], 1, 3⟩ : Region) ∈ remove_non_conflicting_regions (find_regions_pure bpWrapper) ∧
    (⟨[2], 2, 4⟩ : Region) ∈ remove_non_conflicting_regions (find_regions_pure bpWrapper) ∧
    cluster_conflicts (remove_non_conflicting_regions (find_regions_pure bpWrapper)) =
      [[⟨[1], 1, 3⟩, ⟨[2], 2, 4⟩]] :=
  ⟨by decide, by decide, by decide, rfl⟩

/-- Claim C7: the spec says every recursive pass removes at least one region
so the recursion always terminates.  With scoring [-1, -1] on two crossing
pairs the solver returns only the empty solution, the filtered difference
equals the whole cluster, and the recursion calls itself on identical
arguments: it never terminates (every fuel is exhausted, the Python
`RecursionError`). -/
theorem claim_C7_nontermination_on_negative_scores :
    (cluster_conflicts (remove_non_conflicting_regions (find_regions_pure bpCross)) =
      [clusterCross]) ∧
    (get_optimal_solutions clusterCross [-1, -1] = .ok [[]]) ∧
    (remove_non_conflicting_regions
      (clusterCross.filter (fun r => decide (r ∉ ([] : Solution)))) = clusterCross) ∧
    (∀ fuel, get_result_diff fuel clusterCross [-1, -1] = .error .recursionError) := by
  refine ⟨rfl, rfl, rfl, ?_⟩
  intro fuel
  induction fuel with
  | zero => rfl
  | succ f ih =>
    have h1 : get_result_diff (f + 1) clusterCross [-1, -1] =
        ebind (ebind (get_result_diff f clusterCross [-1, -1])
          (fun diffs => .ok (diffs.map (fun d => zipAdd [1, 1] d))))
          (fun rows => .ok (rows ++ [])) := rfl
    rw [h1, ih]
    rfl

/-- Claim C8: the spec says the order-0 base pairs of every returned row are
pairwise non-crossing.  Because only the rows of the last cluster are returned,
the two crossing pairs (0,2) and (1,3) of the first cluster stay at order 0
in every row of `pseudoknots bpMulti`. -/
theorem claim_C8_order_zero_pairs_cross :
    pseudoknots 10 bpMulti none = .ok [[0, 0, 0, 1], [0, 0, 1, 0]] ∧
    ([0, 0, 0, 1] : List Nat).getD 0 0 = 0 ∧
    ([0, 0, 0, 1] : List Nat).getD 1 0 = 0 ∧
    pairsCross (bpMulti.getD 0 (0, 0)) (bpMulti.getD 1 (0, 0)) :=
  ⟨rfl, rfl, rfl, by decide⟩

/-- Claim C10: in every row of a successful `pseudoknots` result, all base
pairs of one region carry the same order: order increments are only applied
to whole regions, whose member sets partition the base-pair positions. -/
theorem claim_C10_orders_constant_on_regions
    (fuel : Nat) (bp : List (Nat × Nat)) (scoringOpt : Option (List Int))
    (res : List (List Nat)) (hres : pseudoknots fuel bp scoringOpt = .ok res) :
    ∀ R ∈ find_regions_pure bp, ∀ p ∈ R.pairs, ∀ q ∈ R.pairs, ∀ row ∈ res,
      row.getD p 0 = row.getD q 0 := by
  intro R hR p hp q hq row hrow
  unfold pseudoknots at hres
  by_cases hlen : bp.length = (actual_scoring bp scoringOpt).length
  · rw [if_pos hlen] at hres
    cases hfr : find_regions bp with
    | error e =>
      rw [hfr] at hres
      cases hres
    | ok regions =>
      rw [hfr, ebind_ok] at hres
      have hregions := find_regions_ok hfr
      subst hregions
      rcases fold_clusters_cases _ _ _ _ _ hres with rfl | ⟨c, hc, hgd⟩
      · rcases List.mem_singleton.mp hrow with rfl
        rw [getD_replicate_zero, getD_replicate_zero]
      · have hCfull : ClusterOK (find_regions_pure bp) ((actual_scoring bp scoringOpt).length) := by
          have h0 := find_regions_ClusterOK bp
          rwa [hlen] at h0
        have hsubc : ∀ x ∈ c, x ∈ find_regions_pure bp := by
          intro x hx
          exact remove_non_conflicting_subset _ x (cluster_conflicts_subset _ c hc x hx)
        have hrow_ok := get_result_diff_RowOK fuel c (actual_scoring bp scoringOpt) res _
          rfl (hCfull.mono hsubc) hgd row hrow
        by_cases hRc : R ∈ c
        · exact hrow_ok.2.2 R hRc p hp q hq
        · have hz : ∀ x, x ∈ R.pairs → row.getD x 0 = 0 := by
            intro x hx
            by_contra hcz
            obtain ⟨S, hS, hxS⟩ := hrow_ok.2.1 x hcz
            by_cases hRS : R = S
            · subst hRS
              exact hRc hS
            · exact hCfull.2.1 R hR S (hsubc S hS) hRS x hx hxS
          rw [hz p hp, hz q hq]
  · rw [if_neg hlen] at hres
    cases hres

/-- Witness for C10: on Scenario B the single region has members 0, 1, 2 and
the returned row assigns them the same order. -/
theorem claim_C10_witness :
    pseudoknots 7 bpNested none = .ok [[0, 0, 0]] ∧
    ([0, 0, 0] : List Nat).getD 0 0 = ([0, 0, 0] : List Nat).getD 2 0 :=
  ⟨rfl,
   claim_C10_orders_constant_on_regions 7 bpNested none [[0, 0, 0]] rfl
     ⟨[0, 1, 2], 0, 5⟩ (by decide) 0 (by decide) 2 (by decide) [0, 0, 0] (by decide)⟩
